import Mathlib

/-!
Verification development for the Rosetta experiments engine
(`src/experiments.py`).  The Python program is shallowly embedded:

* Python floats are modelled as real numbers (`ℝ`); `math.exp`,
  `math.sqrt` and `math.log` become `Real.exp`, `Real.sqrt`, `Real.log`.
* Python dicts (which preserve insertion order) are modelled as
  association lists `List (String × _)`; dict updates on a present key
  update the (unique) entry in place.
* Python's `random.random()` draws are passed in explicitly (a single
  draw `r : ℝ` for one step, a stream `ℕ → ℝ` for a multi-step run).
* Fallible operations (the builder's `ids[0]` crash on an empty corpus)
  return `Option`.
* `list.sort(key=...)` (Timsort, a stable sort) is modelled by
  `List.insertionSort` with the corresponding total preorder; the output
  of a stable sort is uniquely determined by the preorder, so this is
  extensionally the same function.
* Python's `round(x, n)` (applied to exact model values) is modelled by
  rational/real rounding to `n` decimal places.
-/

namespace Rosetta

/-- Source: `cosine_sim(a, b)` (experiments.py:69-73).
`dot = sum(x*y for x,y in zip(a,b))` silently truncates to the shorter
list; the magnitudes run over the full vectors; zero-magnitude vectors
yield similarity 0. -/
noncomputable def cosine_sim (a b : List ℝ) : ℝ :=
  let dot := (List.zipWith (· * ·) a b).sum
  let ma := Real.sqrt ((a.map fun x => x * x).sum)
  let mb := Real.sqrt ((b.map fun x => x * x).sum)
  if 0 < ma ∧ 0 < mb then dot / (ma * mb) else 0

/-- Source: `dragon_turn(step)` (experiments.py:75-77).  Python's
arbitrary-precision bitwise `&` and `<<` on possibly negative ints are
two's-complement operations, which is exactly `Int.land` / `<<<` on `ℤ`. -/
def dragon_turn (step : ℤ) : ℤ :=
  if step ≤ 0 then 1
  else if Int.land (Int.land step (-step) <<< (1 : ℤ)) step = 0 then 1 else -1

/-- Source: dataclass `Node` (experiments.py:83-89). -/
structure Node where
  id : String
  content : String
  embedding : List ℝ
  visits : ℕ
  hue : ℝ

/-- Snap record (experiments.py:185-190). -/
structure Snap where
  step : ℕ
  delta : ℝ
  node : String
  preview : String

/-- Source: dataclass `Engine` (experiments.py:91-100). -/
structure Engine where
  nodes : List (String × Node)
  edges : List (String × List String)
  current : String
  path : List String
  turns : List ℤ
  snaps : List Snap
  entropy_hist : List ℝ
  step : ℕ

/-- Association-list lookup, modelling Python `d[k]` / `k in d`. -/
def lookupA {α : Type} (l : List (String × α)) (k : String) : Option α :=
  (l.find? fun p => p.1 == k).map fun p => p.2

/-- The default node used when an id is absent from `nodes`; the Python
code would raise `KeyError` there, a situation the graph invariant
(every edge id is a node key) rules out. -/
def defaultNode : Node := { id := "", content := "", embedding := [], visits := 0, hue := 0 }

/-- `engine.nodes[i]`, total via `defaultNode`. -/
def getNode (e : Engine) (i : String) : Node :=
  (lookupA e.nodes i).getD defaultNode

/-- Update the entry of key `k` (Python `engine.nodes[k] = ...`). -/
def updateA {α : Type} (l : List (String × α)) (k : String) (f : α → α) :
    List (String × α) :=
  l.map fun p => if p.1 = k then (p.1, f p.2) else p

/-- `neighbors = engine.edges[engine.current]` (experiments.py:140). -/
def stepNeighbors (e : Engine) : List String :=
  (lookupA e.edges e.current).getD []

/-- The per-neighbor selection weights after `exp`
(experiments.py:148-155): `math.exp(novelty + sim*0.3 - hue_avoid + turn*0.1)`. -/
noncomputable def stepWeights (e : Engine) : List ℝ :=
  (stepNeighbors e).map fun n =>
    let node := getNode e n
    let novelty := 1.0 / (1 + (node.visits : ℝ))
    let sim := cosine_sim (getNode e e.current).embedding node.embedding
    let hue_avoid := node.hue * 0.5
    Real.exp (novelty + sim * 0.3 - hue_avoid + (dragon_turn ((e.step : ℤ) + 1) : ℝ) * 0.1)

/-- `probs = [w/total for w in weights]` (experiments.py:157-158). -/
noncomputable def stepProbs (e : Engine) : List ℝ :=
  (stepWeights e).map fun w => w / (stepWeights e).sum

/-- The inverse-CDF sampling loop (experiments.py:161-168): running
cumulative sum `c`, absolute index `i`; the first index whose cumulative
probability reaches the draw `r` wins; if no index triggers, the result
is the fallback index 0 (`next_node = neighbors[0]`). -/
noncomputable def selGo : List ℝ → ℝ → ℝ → ℕ → ℕ
  | [], _, _, _ => 0
  | p :: ps, r, c, i => if r ≤ c + p then i else selGo ps r (c + p) (i + 1)

/-- Index of the sampled neighbor for draw `r`. -/
noncomputable def selectIdx (probs : List ℝ) (r : ℝ) : ℕ :=
  selGo probs r 0 0

/-- The chosen next node (experiments.py:163-168). -/
noncomputable def stepNext (e : Engine) (r : ℝ) : String :=
  (stepNeighbors e).getD (selectIdx (stepProbs e) r) e.current

/-- `entropy = -sum(p * math.log(p + 1e-10) for p in probs)`
(experiments.py:177). -/
noncomputable def stepEntropy (e : Engine) : ℝ :=
  -((stepProbs e).map fun p => p * Real.log (p + 1e-10)).sum

/-- The snap-firing condition (experiments.py:182-184) as a function of
the post-append entropy history: fires iff the history has length > 4
and `hist[-5] - hist[-1] > 0.08` (the code's `entropy` variable is the
last element of the just-appended history). -/
def snapFires (hist : List ℝ) : Prop :=
  4 < hist.length ∧ 0.08 < hist.getD (hist.length - 5) 0 - hist.getD (hist.length - 1) 0

noncomputable instance (hist : List ℝ) : Decidable (snapFires hist) := by
  unfold snapFires; infer_instance

/-- Python `round(x, 4)`, on exact model reals (ties, where half-even
and half-up could differ, do not arise in any claim). -/
noncomputable def round4 (x : ℝ) : ℝ := (round (x * 10000) : ℤ) / 10000

/-- The non-degenerate body of `do_step` (experiments.py:144-198),
reached once both guards have passed.  State updates in source order:
chosen node gets `visits += 1` and `hue = min(1.0, hue + 0.15)`; then
every node's hue is multiplied by 0.95; the new entropy is appended;
the snap (if any) is recorded; `current`, `path`, `turns`, `step` are
advanced. -/
noncomputable def do_step_main (e : Engine) (r : ℝ) : Engine × String × ℝ × Option Snap :=
  let next := stepNext e r
  let entropy := stepEntropy e
  let hist := e.entropy_hist ++ [entropy]
  let snap : Option Snap :=
    if snapFires hist then
      some { step := e.step, delta := round4 (hist.getD (hist.length - 5) 0 - entropy),
             node := next, preview := (getNode e next).content.take 80 }
    else none
  ({ nodes := (updateA e.nodes next fun nd =>
        { nd with visits := nd.visits + 1, hue := min 1.0 (nd.hue + 0.15) }).map
          fun p => (p.1, { p.2 with hue := p.2.hue * 0.95 }),
     edges := e.edges,
     current := next,
     path := e.path ++ [next],
     turns := e.turns ++ [dragon_turn ((e.step : ℤ) + 1)],
     snaps := e.snaps ++ snap.toList,
     entropy_hist := hist,
     step := e.step + 1 }, next, entropy, snap)

/-- Source: `do_step(engine)` (experiments.py:135-198).  The two guards:
`not engine.current or engine.current not in engine.edges` and
`if not neighbors` both return `(engine.current, 0.0, None)` without
touching the state. -/
noncomputable def do_step (e : Engine) (r : ℝ) : Engine × String × ℝ × Option Snap :=
  if e.current = "" ∨ lookupA e.edges e.current = none then (e, e.current, 0, none)
  else if stepNeighbors e = [] then (e, e.current, 0, none)
  else do_step_main e r

/-- Iterate `do_step` `n` times, drawing `rs 0, rs 1, ...`
(the loop of `run_steps`, experiments.py:202-203). -/
noncomputable def stepN (e : Engine) : ℕ → (ℕ → ℝ) → Engine
  | 0, _ => e
  | n + 1, rs => stepN (do_step e (rs 0)).1 n fun i => rs (i + 1)

/-- The result dict of `run_steps` (experiments.py:210-216). -/
structure RunResult where
  steps : ℕ
  snaps : ℕ
  coverage : ℚ
  unique_visited : ℕ

/-- `visited = len(set(engine.path))` (experiments.py:210). -/
def uniqueVisited (e : Engine) : ℕ := e.path.toFinset.card

/-- Python `round(x, 3)` on an exact rational. -/
def round3 (q : ℚ) : ℚ := (round (q * 1000) : ℤ) / 1000

/-- The statistics computed at the end of `run_steps`
(experiments.py:210-216): note the coverage is `round(visited/total, 3)`. -/
def engineStats (e : Engine) : RunResult :=
  { steps := e.step,
    snaps := e.snaps.length,
    coverage := round3 ((uniqueVisited e : ℚ) / (e.nodes.length : ℚ)),
    unique_visited := uniqueVisited e }

/-- Source: `run_steps(engine, n)` (experiments.py:200-216), without the
printing. -/
noncomputable def run_steps (e : Engine) (n : ℕ) (rs : ℕ → ℝ) : RunResult :=
  engineStats (stepN e n rs)

/-- Descending-by-similarity ordering used by both sorts in the source
(`key=lambda x: -x[1]` over `(id, sim)` pairs). -/
def simDescP (x y : String × ℝ) : Prop := y.2 ≤ x.2

noncomputable instance : DecidableRel simDescP := fun x y =>
  (inferInstance : Decidable (y.2 ≤ x.2))

/-- Insert a binding into an insertion-ordered association list with
Python-dict semantics: overwrite in place if the key exists, else append. -/
def insertA {α : Type} (l : List (String × α)) (k : String) (v : α) :
    List (String × α) :=
  if (l.find? fun p => p.1 == k).isSome then
    l.map fun p => if p.1 = k then (k, v) else p
  else l ++ [(k, v)]

/-- The top-`k` neighbor list of `nid` (experiments.py:126-129):
similarities to every other id, stable-sorted descending, first `k` ids. -/
noncomputable def knnOf (nodes : List (String × Node)) (ids : List String)
    (k : ℕ) (nid : String) : List String :=
  let sims := (ids.filter fun oid => oid ≠ nid).map fun oid =>
    (oid, cosine_sim ((lookupA nodes nid).getD defaultNode).embedding
                     ((lookupA nodes oid).getD defaultNode).embedding)
  ((sims.insertionSort simDescP).take k).map fun s => s.1

/-- Source: `build_engine(chunks, k)` (experiments.py:110-133).  The
embedding provider (`embed_batch`) is the external collaborator `emb`.
On an empty corpus `ids` is empty and the Python code raises
`IndexError` at `ids[0]`; that fatal failure is modelled as `none`. -/
noncomputable def build_engine (emb : String → List ℝ)
    (chunks : List (String × String)) (k : ℕ) : Option Engine :=
  let embeddings := (chunks.map fun c => c.2).map emb
  let nodes := (chunks.zip embeddings).foldl
    (fun acc ce => insertA acc ce.1.1
      { id := ce.1.1, content := ce.1.2.take 400, embedding := ce.2,
        visits := 0, hue := 0 })
    []
  let ids := nodes.map fun p => p.1
  let edges := ids.map fun nid => (nid, knnOf nodes ids k nid)
  match ids with
  | [] => none
  | id0 :: _ =>
    some { nodes := nodes, edges := edges, current := id0, path := [id0],
           turns := [], snaps := [], entropy_hist := [], step := 0 }

/-- Descending-by-score ordering of the score triples of `find_meaning`
(`key=lambda x: -x[0]`). -/
def scoreDescP (x y : ℝ × String × String) : Prop := y.1 ≤ x.1

noncomputable instance : DecidableRel scoreDescP := fun x y =>
  (inferInstance : Decidable (y.1 ≤ x.1))

/-- Source: `find_meaning(engine, query, k)` (experiments.py:218-224);
the query embedding is passed directly (the `embed` call is the external
provider). -/
noncomputable def find_meaning (e : Engine) (q : List ℝ) (k : ℕ) :
    List (ℝ × String × String) :=
  let scores := e.nodes.map fun p => (cosine_sim q p.2.embedding, p.2.id, p.2.content)
  (scores.insertionSort scoreDescP).take k

/-! Concrete test fixtures used to instantiate the theorems below. -/

/-- A two-node graph where each node lists the other as neighbor. -/
def nodeA : Node := { id := "a", content := "ca", embedding := [1, 0], visits := 0, hue := 0 }

def nodeB : Node := { id := "b", content := "cb", embedding := [0, 1], visits := 0, hue := 0 }

def eTwo : Engine :=
  { nodes := [("a", nodeA), ("b", nodeB)],
    edges := [("a", ["b"]), ("b", ["a"])],
    current := "a", path := ["a"], turns := [], snaps := [],
    entropy_hist := [], step := 0 }

/-- A degenerate node: `current` has an (existing) empty edge list. -/
def eDegen : Engine :=
  { nodes := [("a", nodeA)], edges := [("a", [])],
    current := "a", path := ["a"], turns := [], snaps := [],
    entropy_hist := [], step := 0 }

/-- Three nodes, one visited: unrounded coverage would be 1/3. -/
def nodeC : Node := { id := "c", content := "cc", embedding := [1, 1], visits := 0, hue := 0 }

def eCov : Engine :=
  { nodes := [("a", nodeA), ("b", nodeB), ("c", nodeC)], edges := [],
    current := "a", path := ["a"], turns := [], snaps := [],
    entropy_hist := [], step := 0 }

/-- One-chunk corpus and a constant embedding provider. -/
def chunksOne : List (String × String) := [("a", "alpha")]

def embOne : String → List ℝ := fun _ => [1]

/-- A provider returning embeddings of differing lengths. -/
def embMM : String → List ℝ := fun s => if s = "a" then [1, 0] else [1]

def chunksMM : List (String × String) := [("a", "x"), ("b", "y")]

/-- A single node whose embedding is the zero vector. -/
def nodeZ : Node := { id := "z", content := "cz", embedding := [0], visits := 0, hue := 0 }

def eZero : Engine :=
  { nodes := [("z", nodeZ)], edges := [], current := "z", path := ["z"],
    turns := [], snaps := [], entropy_hist := [], step := 0 }

/-- Two nodes with identical embeddings. -/
def nodeA1 : Node := { id := "a", content := "ca", embedding := [1], visits := 0, hue := 0 }

def nodeB1 : Node := { id := "b", content := "cb", embedding := [1], visits := 0, hue := 0 }

def eDup : Engine :=
  { nodes := [("a", nodeA1), ("b", nodeB1)], edges := [], current := "a",
    path := ["a"], turns := [], snaps := [], entropy_hist := [], step := 0 }

/-- A single node whose embedding matches the witness query. -/
def nodeN : Node := { id := "n", content := "cn", embedding := [1], visits := 0, hue := 0 }

def eOneN : Engine :=
  { nodes := [("n", nodeN)], edges := [], current := "n", path := ["n"],
    turns := [], snaps := [], entropy_hist := [], step := 0 }

/-- The graph/navigation invariant of §3 of the design: every id in the
path and every id referenced in an edge value is a key of `nodes`. -/
def GoodPaths (e : Engine) : Prop :=
  (∀ i ∈ e.path, i ∈ e.nodes.map fun p => p.1) ∧
  (∀ q ∈ e.edges, ∀ i ∈ q.2, i ∈ e.nodes.map fun p => p.1)

instance (e : Engine) : Decidable (GoodPaths e) := by
  unfold GoodPaths; infer_instance

/-! ## Theorems -/

/-- C4: the turn-bias function is a pure deterministic function of the
step index: for `s > 0` it is `+1` exactly when `((s & -s) << 1) & s == 0`
and `-1` otherwise, for `s ≤ 0` it is `+1`, and step index 1 yields `+1`. -/
theorem dragon_turn_rule :
    (∀ s : ℤ, s ≤ 0 → dragon_turn s = 1) ∧
    (∀ s : ℤ, 0 < s →
      dragon_turn s = if Int.land (Int.land s (-s) <<< (1 : ℤ)) s = 0 then 1 else -1) ∧
    dragon_turn 1 = 1 := by
  refine ⟨fun s hs => ?_, fun s hs => ?_, ?_⟩
  · simp [dragon_turn, hs]
  · simp [dragon_turn, not_le.mpr hs]
  · have h1 : Int.land 1 (-1) = ((Nat.ldiff 1 0 : ℕ) : ℤ) := rfl
    have h2 : Nat.ldiff 1 0 = 1 := by simp [Nat.ldiff, Nat.bitwise]
    have h3 : (1 : ℤ) <<< (1 : ℤ) = ((Nat.shiftLeft' false 1 1 : ℕ) : ℤ) := rfl
    have h4 : Nat.shiftLeft' false 1 1 = 2 := by simp [Nat.shiftLeft', Nat.bit]
    have h5 : Int.land 2 1 = ((Nat.land 2 1 : ℕ) : ℤ) := rfl
    have h6 : Nat.land 2 1 = 0 := by decide
    have hc : Int.land (Int.land 1 (-1) <<< (1 : ℤ)) 1 = 0 := by
      rw [h1, h2]
      push_cast
      rw [h3, h4]
      push_cast
      rw [h5, h6]
      rfl
    simp [dragon_turn, hc]

/-- Witness for C4 at concrete step indices `-3` and `2`. -/
theorem dragon_turn_rule_w :
    dragon_turn (-3) = 1 ∧
    dragon_turn 2 = (if Int.land (Int.land 2 (-2) <<< (1 : ℤ)) 2 = 0 then 1 else -1) :=
  ⟨dragon_turn_rule.1 (-3) (by norm_num), dragon_turn_rule.2.1 2 (by norm_num)⟩

/-- C5: when the current node's outgoing edge list is empty, `do_step`
returns `(current, 0.0, None)` and leaves the engine unchanged. -/
theorem do_step_degenerate (e : Engine) (r : ℝ)
    (h : lookupA e.edges e.current = some []) :
    do_step e r = (e, e.current, 0, none) := by
  unfold do_step
  by_cases hc : e.current = "" ∨ lookupA e.edges e.current = none
  · rw [if_pos hc]
  · rw [if_neg hc, if_pos]
    unfold stepNeighbors
    rw [h]
    rfl

/-- Witness for C5 on the concrete degenerate engine. -/
theorem do_step_degenerate_w :
    do_step eDegen 0 = (eDegen, eDegen.current, 0, none) :=
  do_step_degenerate eDegen 0 (by decide)

lemma do_step_main_nodes (e : Engine) (r : ℝ) :
    (do_step_main e r).1.nodes =
      (updateA e.nodes (stepNext e r) fun nd =>
        { nd with visits := nd.visits + 1, hue := min 1.0 (nd.hue + 0.15) }).map
        fun p => (p.1, { p.2 with hue := p.2.hue * 0.95 }) := rfl

lemma do_step_main_hist (e : Engine) (r : ℝ) :
    (do_step_main e r).1.entropy_hist = e.entropy_hist ++ [stepEntropy e] := rfl

lemma do_step_main_next (e : Engine) (r : ℝ) :
    (do_step_main e r).2.1 = stepNext e r := rfl

lemma do_step_main_current (e : Engine) (r : ℝ) :
    (do_step_main e r).1.current = stepNext e r := rfl

lemma do_step_main_path (e : Engine) (r : ℝ) :
    (do_step_main e r).1.path = e.path ++ [stepNext e r] := rfl

lemma do_step_main_edges (e : Engine) (r : ℝ) :
    (do_step_main e r).1.edges = e.edges := rfl

lemma do_step_main_snap (e : Engine) (r : ℝ) :
    (do_step_main e r).2.2.2 =
      (if snapFires (e.entropy_hist ++ [stepEntropy e]) then
        some { step := e.step,
               delta := round4 ((e.entropy_hist ++ [stepEntropy e]).getD
                 ((e.entropy_hist ++ [stepEntropy e]).length - 5) 0 - stepEntropy e),
               node := stepNext e r,
               preview := (getNode e (stepNext e r)).content.take 80 }
      else none) := rfl

/-- When both guards pass, `do_step` runs the main body. -/
lemma do_step_of_active (e : Engine) (r : ℝ) (hc : e.current ≠ "")
    (hn : stepNeighbors e ≠ []) : do_step e r = do_step_main e r := by
  have hlook : lookupA e.edges e.current ≠ none := by
    intro hnone
    apply hn
    unfold stepNeighbors
    rw [hnone]
    rfl
  unfold do_step
  rw [if_neg (by push_neg; exact ⟨hc, hlook⟩), if_neg hn]

/-- Hue bounds are preserved by the two-stage hue update
(boost the chosen node clamped at 1, then global 0.95 decay). -/
lemma hue_update_bounds (nodes : List (String × Node)) (next : String)
    (hb : ∀ p ∈ nodes, 0 ≤ p.2.hue ∧ p.2.hue ≤ 1) :
    ∀ p ∈ (updateA nodes next fun nd =>
        { nd with visits := nd.visits + 1, hue := min 1.0 (nd.hue + 0.15) }).map
        (fun p => (p.1, { p.2 with hue := p.2.hue * 0.95 })),
      0 ≤ p.2.hue ∧ p.2.hue ≤ 1 := by
  intro p hp
  rw [List.mem_map] at hp
  obtain ⟨q, hq, rfl⟩ := hp
  unfold updateA at hq
  rw [List.mem_map] at hq
  obtain ⟨s, hs, rfl⟩ := hq
  have hsb := hb s hs
  by_cases h : s.1 = next
  · rw [if_pos h]
    dsimp only
    constructor
    · have : (0 : ℝ) ≤ min 1.0 (s.2.hue + 0.15) := by
        apply le_min (by norm_num)
        nlinarith [hsb.1]
      nlinarith
    · have h1 : min 1.0 (s.2.hue + 0.15) ≤ 1 := by
        apply min_le_of_left_le
        norm_num
      nlinarith [le_min (show (0:ℝ) ≤ 1.0 by norm_num) (show (0:ℝ) ≤ s.2.hue + 0.15 by nlinarith [hsb.1]) ]
  · rw [if_neg h]
    dsimp only
    constructor
    · nlinarith [hsb.1]
    · nlinarith [hsb.1, hsb.2]

/-- C3: `0 ≤ hue ≤ 1` for every node is an invariant of the step
operation. -/
theorem hue_bounds (e : Engine) (r : ℝ)
    (hb : ∀ p ∈ e.nodes, 0 ≤ p.2.hue ∧ p.2.hue ≤ 1) :
    ∀ p ∈ (do_step e r).1.nodes, 0 ≤ p.2.hue ∧ p.2.hue ≤ 1 := by
  unfold do_step
  split_ifs with h1 h2
  · exact hb
  · exact hb
  · rw [do_step_main_nodes]
    exact hue_update_bounds e.nodes (stepNext e r) hb

/-- Witness for C3 on the concrete two-node engine (all hues 0). -/
theorem hue_bounds_w :
    List.Forall (fun p => 0 ≤ p.2.hue ∧ p.2.hue ≤ 1) (do_step eTwo 0).1.nodes :=
  List.forall_iff_forall_mem.mpr
    (hue_bounds eTwo 0 (by
      intro p hp
      have h2 : p = ("a", nodeA) ∨ p = ("b", nodeB) := by simpa [eTwo] using hp
      rcases h2 with rfl | rfl <;> norm_num [nodeA, nodeB]))

lemma sum_map_div (l : List ℝ) (t : ℝ) : (l.map fun w => w / t).sum = l.sum / t := by
  induction l with
  | nil => simp
  | cons x xs ih => simp [ih, add_div]

lemma stepWeights_pos (e : Engine) : ∀ x ∈ stepWeights e, 0 < x := by
  intro x hx
  unfold stepWeights at hx
  rw [List.mem_map] at hx
  obtain ⟨n, _, rfl⟩ := hx
  exact Real.exp_pos _

lemma stepWeights_sum_pos (e : Engine) (h : stepNeighbors e ≠ []) :
    0 < (stepWeights e).sum := by
  refine List.sum_pos _ (stepWeights_pos e) ?_
  unfold stepWeights
  simpa using h

/-- C1: per-step selection probabilities are the softmax of the weights
`w(n) = 1/(1+visits(n)) + 0.3·cos(current,n) − 0.5·hue(n) + 0.1·t`, and
they sum to exactly 1 whenever the neighbor list is non-empty. -/
theorem softmax_probs (e : Engine) (h : stepNeighbors e ≠ []) :
    (stepProbs e).sum = 1 ∧
    stepProbs e = (stepNeighbors e).map (fun n =>
      Real.exp (1 / (1 + ((getNode e n).visits : ℝ))
          + 0.3 * cosine_sim (getNode e e.current).embedding (getNode e n).embedding
          - 0.5 * (getNode e n).hue
          + 0.1 * (dragon_turn ((e.step : ℤ) + 1) : ℝ)) /
      ((stepNeighbors e).map fun m =>
        Real.exp (1 / (1 + ((getNode e m).visits : ℝ))
          + 0.3 * cosine_sim (getNode e e.current).embedding (getNode e m).embedding
          - 0.5 * (getNode e m).hue
          + 0.1 * (dragon_turn ((e.step : ℤ) + 1) : ℝ))).sum) := by
  have hw : stepWeights e = (stepNeighbors e).map fun n =>
      Real.exp (1 / (1 + ((getNode e n).visits : ℝ))
        + 0.3 * cosine_sim (getNode e e.current).embedding (getNode e n).embedding
        - 0.5 * (getNode e n).hue
        + 0.1 * (dragon_turn ((e.step : ℤ) + 1) : ℝ)) := by
    unfold stepWeights
    apply List.map_congr_left
    intro n _
    dsimp only
    congr 1
    ring
  constructor
  · unfold stepProbs
    rw [sum_map_div, div_self (ne_of_gt (stepWeights_sum_pos e h))]
  · unfold stepProbs
    rw [hw, List.map_map]
    rfl

/-- Witness for C1 on the concrete two-node engine. -/
theorem softmax_probs_w :
    (stepProbs eTwo).sum = 1 :=
  (softmax_probs eTwo (by decide)).1

/-- C2: after a non-degenerate step appends its entropy value, a snap is
returned iff the new history has length > 4 and
`hist[-5] - hist[-1] > 0.08`; at a crafted history whose lag-4 drop is
exactly 0.08 the detector does not fire, at 0.0801 it fires. -/
theorem snap_rule :
    (∀ (e : Engine) (r : ℝ), e.current ≠ "" → stepNeighbors e ≠ [] →
      (((do_step e r).2.2.2).isSome = true ↔
        snapFires ((do_step e r).1.entropy_hist))) ∧
    ¬ snapFires [0.5, 0.1, 0.1, 0.1, 0.42] ∧
    snapFires [0.5, 0.1, 0.1, 0.1, 0.4199] := by
  refine ⟨fun e r hc hn => ?_, ?_, ?_⟩
  · rw [do_step_of_active e r hc hn, do_step_main_snap, do_step_main_hist]
    by_cases hf : snapFires (e.entropy_hist ++ [stepEntropy e])
    · simp [hf]
    · simp [hf]
  · unfold snapFires
    simp only [List.length_cons, List.length_nil]
    norm_num [List.getD]
  · unfold snapFires
    simp only [List.length_cons, List.length_nil]
    norm_num [List.getD]

/-- Witness for C2 on the concrete two-node engine with draw 1/2. -/
theorem snap_rule_w :
    ((do_step eTwo (1/2)).2.2.2).isSome = true ↔
      snapFires ((do_step eTwo (1/2)).1.entropy_hist) :=
  snap_rule.1 eTwo (1/2) (by decide) (by decide)

lemma selGo_cases (ps : List ℝ) : ∀ (r c : ℝ) (i : ℕ),
    selGo ps r c i = 0 ∨ (i ≤ selGo ps r c i ∧ selGo ps r c i < i + ps.length) := by
  induction ps with
  | nil => intro r c i; left; rfl
  | cons p ps ih =>
    intro r c i
    unfold selGo
    by_cases h : r ≤ c + p
    · rw [if_pos h]
      right
      exact ⟨le_refl i, by simp⟩
    · rw [if_neg h]
      rcases ih r (c + p) (i + 1) with h0 | ⟨h1, h2⟩
      · left; exact h0
      · right
        refine ⟨le_trans (Nat.le_succ i) h1, ?_⟩
        calc selGo ps r (c + p) (i + 1) < i + 1 + ps.length := h2
          _ = i + (p :: ps).length := by simp only [List.length_cons]; omega

lemma selectIdx_lt (ps : List ℝ) (r : ℝ) (h : ps ≠ []) :
    selectIdx ps r < ps.length := by
  have hl : 0 < ps.length := List.length_pos.mpr h
  rcases selGo_cases ps r 0 0 with h0 | ⟨_, h2⟩
  · unfold selectIdx; omega
  · unfold selectIdx; omega

lemma selGo_fallback (ps : List ℝ) : ∀ (r c : ℝ) (i : ℕ),
    (∀ j < ps.length, ¬ r ≤ c + (ps.take (j + 1)).sum) → selGo ps r c i = 0 := by
  induction ps with
  | nil => intro r c i _; rfl
  | cons p ps ih =>
    intro r c i h
    unfold selGo
    have h0 := h 0 (by simp)
    simp only [List.take_succ_cons, List.take_zero, List.sum_cons, List.sum_nil,
      add_zero] at h0
    rw [if_neg h0]
    apply ih
    intro j hj hle
    apply h (j + 1) (by simp; omega)
    simpa [add_assoc] using hle

/-- C10: for a non-degenerate step, the entered node (returned, set as
`current`, appended to `path`) is a member of the current edge list no
matter what the draw is; when the cumulative loop never triggers the
sampler falls back to the first neighbor. -/
theorem step_in_neighbors (e : Engine) (r : ℝ) (hc : e.current ≠ "")
    (hn : stepNeighbors e ≠ []) :
    (do_step e r).2.1 ∈ stepNeighbors e ∧
    (do_step e r).1.current = (do_step e r).2.1 ∧
    (do_step e r).1.path = e.path ++ [(do_step e r).2.1] ∧
    ((∀ j < (stepProbs e).length, ¬ r ≤ ((stepProbs e).take (j + 1)).sum) →
      (do_step e r).2.1 = (stepNeighbors e).getD 0 e.current) := by
  rw [do_step_of_active e r hc hn]
  rw [do_step_main_next, do_step_main_current, do_step_main_path]
  have hplen : (stepProbs e).length = (stepNeighbors e).length := by
    unfold stepProbs stepWeights
    simp
  have hpne : stepProbs e ≠ [] := by
    intro hcon
    apply hn
    have := congrArg List.length hcon
    rw [hplen] at this
    exact List.eq_nil_of_length_eq_zero this
  have hidx : selectIdx (stepProbs e) r < (stepNeighbors e).length := by
    rw [← hplen]
    exact selectIdx_lt _ r hpne
  refine ⟨?_, rfl, rfl, ?_⟩
  · unfold stepNext
    rw [List.getD_eq_getElem _ _ hidx]
    exact List.getElem_mem _
  · intro hno
    unfold stepNext selectIdx
    rw [selGo_fallback (stepProbs e) r 0 0 (by simpa using hno)]

/-- Witness for C10 on the concrete two-node engine. -/
theorem step_in_neighbors_w :
    (do_step eTwo (1/2)).2.1 ∈ stepNeighbors eTwo :=
  (step_in_neighbors eTwo (1/2) (by decide) (by decide)).1

lemma stepNext_mem (e : Engine) (r : ℝ) (hn : stepNeighbors e ≠ []) :
    stepNext e r ∈ stepNeighbors e := by
  have hplen : (stepProbs e).length = (stepNeighbors e).length := by
    unfold stepProbs stepWeights
    simp
  have hpne : stepProbs e ≠ [] := by
    intro hcon
    apply hn
    have hl := congrArg List.length hcon
    rw [hplen] at hl
    exact List.eq_nil_of_length_eq_zero hl
  have hidx : selectIdx (stepProbs e) r < (stepNeighbors e).length := by
    rw [← hplen]
    exact selectIdx_lt _ r hpne
  unfold stepNext
  rw [List.getD_eq_getElem _ _ hidx]
  exact List.getElem_mem _

lemma stepNeighbors_edge (e : Engine) (hn : stepNeighbors e ≠ []) :
    ∃ q ∈ e.edges, stepNeighbors e = q.2 := by
  unfold stepNeighbors at hn ⊢
  cases hl : lookupA e.edges e.current with
  | none => rw [hl] at hn; simp at hn
  | some ns =>
    unfold lookupA at hl
    cases hf : e.edges.find? fun p => p.1 == e.current with
    | none => rw [hf] at hl; simp at hl
    | some q =>
      refine ⟨q, List.mem_of_find?_eq_some hf, ?_⟩
      rw [hf] at hl
      simp at hl
      simp [lookupA, hf, hl]

lemma do_step_nodes_keys (e : Engine) (r : ℝ) :
    ((do_step e r).1.nodes.map fun p => p.1) = e.nodes.map fun p => p.1 := by
  unfold do_step
  split_ifs
  · rfl
  · rfl
  · rw [do_step_main_nodes]
    unfold updateA
    rw [List.map_map, List.map_map]
    apply List.map_congr_left
    intro p _
    dsimp only [Function.comp]
    split <;> rfl

lemma do_step_nodes_length (e : Engine) (r : ℝ) :
    (do_step e r).1.nodes.length = e.nodes.length := by
  have h := congrArg List.length (do_step_nodes_keys e r)
  simpa using h

lemma do_step_edges (e : Engine) (r : ℝ) : (do_step e r).1.edges = e.edges := by
  unfold do_step
  split_ifs
  · rfl
  · rfl
  · exact do_step_main_edges e r

lemma do_step_path (e : Engine) (r : ℝ) :
    (do_step e r).1.path = e.path ∨
    (stepNeighbors e ≠ [] ∧ (do_step e r).1.path = e.path ++ [stepNext e r]) := by
  unfold do_step
  split_ifs with h1 h2
  · left; rfl
  · left; rfl
  · right; exact ⟨h2, do_step_main_path e r⟩

lemma do_step_good (e : Engine) (r : ℝ) (hg : GoodPaths e) :
    GoodPaths (do_step e r).1 := by
  obtain ⟨hp, he⟩ := hg
  constructor
  · intro i hi
    rw [do_step_nodes_keys]
    rcases do_step_path e r with hpath | ⟨hn, hpath⟩
    · rw [hpath] at hi
      exact hp i hi
    · rw [hpath, List.mem_append] at hi
      rcases hi with hi | hi
      · exact hp i hi
      · simp only [List.mem_singleton] at hi
        subst hi
        obtain ⟨q, hq, hqe⟩ := stepNeighbors_edge e hn
        exact he q hq _ (hqe ▸ stepNext_mem e r hn)
  · intro q hq i hi
    rw [do_step_nodes_keys]
    rw [do_step_edges] at hq
    exact he q hq i hi

lemma stepN_good (e : Engine) (n : ℕ) (rs : ℕ → ℝ) (hg : GoodPaths e) :
    GoodPaths (stepN e n rs) := by
  induction n generalizing e rs with
  | zero => exact hg
  | succ m ih => exact ih _ _ (do_step_good _ _ hg)

lemma stepN_nodes_length (e : Engine) (n : ℕ) (rs : ℕ → ℝ) :
    (stepN e n rs).nodes.length = e.nodes.length := by
  induction n generalizing e rs with
  | zero => rfl
  | succ m ih => rw [stepN]; rw [ih]; exact do_step_nodes_length e (rs 0)

lemma uniqueVisited_le (e : Engine) (hg : GoodPaths e) :
    uniqueVisited e ≤ e.nodes.length := by
  unfold uniqueVisited
  calc e.path.toFinset.card ≤ (e.nodes.map fun p => p.1).toFinset.card := by
        apply Finset.card_le_card
        intro i hi
        rw [List.mem_toFinset] at hi
        rw [List.mem_toFinset]
        exact hg.1 i hi
    _ ≤ (e.nodes.map fun p => p.1).length := List.toFinset_card_le _
    _ = e.nodes.length := List.length_map _ _

lemma round3_nonneg (q : ℚ) (h : 0 ≤ q) : 0 ≤ round3 q := by
  unfold round3
  apply div_nonneg _ (by norm_num)
  have : (0 : ℤ) ≤ round (q * 1000) := by
    rw [round_eq]
    apply Int.floor_nonneg.mpr
    nlinarith
  exact_mod_cast this

lemma round3_le_one (q : ℚ) (h : q ≤ 1) : round3 q ≤ 1 := by
  unfold round3
  rw [div_le_one (by norm_num)]
  have h1 : round (q * 1000) ≤ round (1000 : ℚ) := by
    rw [round_eq, round_eq]
    apply Int.floor_le_floor
    nlinarith
  have h2 : round (1000 : ℚ) = 1000 := by
    have : ((1000 : ℤ) : ℚ) = (1000 : ℚ) := by norm_num
    rw [← this, round_intCast]
  rw [h2] at h1
  exact_mod_cast h1

lemma round3_one : round3 1 = 1 := by
  unfold round3
  have h : (1 : ℚ) * 1000 = ((1000 : ℤ) : ℚ) := by norm_num
  rw [h, round_intCast]
  norm_num

/-- C6 (amended): the runner's coverage is `unique_visited / total`
**rounded to 3 decimals**; under the graph invariant it lies in `[0, 1]`
and equals 1 whenever every node was visited. -/
theorem coverage_amended (e : Engine) (n : ℕ) (rs : ℕ → ℝ)
    (hg : GoodPaths e) (hne : e.nodes ≠ []) :
    (run_steps e n rs).coverage =
      round3 (((run_steps e n rs).unique_visited : ℚ) / (e.nodes.length : ℚ)) ∧
    0 ≤ (run_steps e n rs).coverage ∧
    (run_steps e n rs).coverage ≤ 1 ∧
    ((run_steps e n rs).unique_visited = e.nodes.length →
      (run_steps e n rs).coverage = 1) := by
  have hlen : (stepN e n rs).nodes.length = e.nodes.length := stepN_nodes_length e n rs
  have hgood : GoodPaths (stepN e n rs) := stepN_good e n rs hg
  have hle : uniqueVisited (stepN e n rs) ≤ e.nodes.length := by
    rw [← hlen]
    exact uniqueVisited_le _ hgood
  have hpos : 0 < (e.nodes.length : ℚ) := by
    have : 0 < e.nodes.length := List.length_pos.mpr hne
    exact_mod_cast this
  have hq0 : 0 ≤ ((uniqueVisited (stepN e n rs) : ℚ) / (e.nodes.length : ℚ)) := by
    apply div_nonneg _ (le_of_lt hpos)
    exact_mod_cast Nat.zero_le _
  have hq1 : ((uniqueVisited (stepN e n rs) : ℚ) / (e.nodes.length : ℚ)) ≤ 1 := by
    rw [div_le_one hpos]
    exact_mod_cast hle
  unfold run_steps engineStats
  dsimp only
  rw [hlen]
  refine ⟨rfl, round3_nonneg _ hq0, round3_le_one _ hq1, fun hu => ?_⟩
  rw [hu, div_self (ne_of_gt hpos)]
  exact round3_one

/-- Witness for C6-amended on the three-node engine with `n = 0`. -/
theorem coverage_amended_w :
    0 ≤ (run_steps eCov 0 fun _ => 0).coverage ∧
    (run_steps eCov 0 fun _ => 0).coverage ≤ 1 :=
  ⟨(coverage_amended eCov 0 (fun _ => 0) (by decide) (by simp [eCov])).2.1,
   (coverage_amended eCov 0 (fun _ => 0) (by decide) (by simp [eCov])).2.2.1⟩

/-- C6 counterexample: on a three-node engine whose path holds one id,
the returned coverage is `round(1/3, 3) = 0.333`, not `1/3`: the claimed
equality `coverage = unique_visited / total_node_count` fails. -/
theorem coverage_cex :
    (run_steps eCov 0 fun _ => 0).coverage ≠
      ((run_steps eCov 0 fun _ => 0).unique_visited : ℚ) /
        ((stepN eCov 0 fun _ => 0).nodes.length : ℚ) := by
  have hu : uniqueVisited eCov = 1 := by decide
  have hl : eCov.nodes.length = 3 := rfl
  have h1 : (run_steps eCov 0 fun _ => 0).coverage = 333 / 1000 := by
    show round3 ((uniqueVisited eCov : ℚ) / (eCov.nodes.length : ℚ)) = 333 / 1000
    rw [hu, hl]
    unfold round3
    have hr : round ((1 : ℚ) / 3 * 1000) = 333 := by
      have hq : (1 : ℚ) / 3 * 1000 = 1000 / 3 := by norm_num
      rw [hq, round_eq, Int.floor_eq_iff]
      norm_num
    push_cast
    rw [hr]
    norm_num
  have h2 : ((run_steps eCov 0 fun _ => 0).unique_visited : ℚ) /
      ((stepN eCov 0 fun _ => 0).nodes.length : ℚ) = 1 / 3 := by
    show ((uniqueVisited eCov : ℚ)) / ((eCov.nodes.length : ℚ)) = 1 / 3
    rw [hu, hl]
    norm_num
  rw [h1, h2]
  norm_num

lemma insertA_ne_nil {α : Type} (l : List (String × α)) (k : String) (v : α) :
    insertA l k v ≠ [] := by
  unfold insertA
  split_ifs with h
  · intro hcon
    rw [List.map_eq_nil_iff] at hcon
    subst hcon
    simp [List.find?] at h
  · simp

/-- The builder succeeds for every non-empty corpus (whatever the
provider returns). -/
lemma build_engine_isSome (emb : String → List ℝ)
    (chunks : List (String × String)) (k : ℕ) (h : chunks ≠ []) :
    (build_engine emb chunks k).isSome = true := by
  unfold build_engine
  simp only
  split
  case h_1 heq =>
    exfalso
    rw [List.map_eq_nil_iff] at heq
    revert heq
    have hzip : chunks.zip ((chunks.map fun c => c.2).map emb) ≠ [] := by
      intro hcon
      apply h
      have hl := congrArg List.length hcon
      rw [List.length_zip] at hl
      simp only [List.length_map, min_self, List.length_nil] at hl
      exact List.eq_nil_of_length_eq_zero hl
    generalize chunks.zip ((chunks.map fun c => c.2).map emb) = pairs at hzip ⊢
    intro heq
    revert heq
    have : ∀ (acc : List (String × Node)), (pairs = [] → acc ≠ []) →
        pairs.foldl (fun acc ce => insertA acc ce.1.1
          { id := ce.1.1, content := ce.1.2.take 400, embedding := ce.2,
            visits := 0, hue := 0 }) acc ≠ [] := by
      clear hzip
      induction pairs with
      | nil => intro acc hacc; exact hacc rfl
      | cons ce ps ih =>
        intro acc _
        rw [List.foldl_cons]
        exact ih _ fun _ => insertA_ne_nil _ _ _
    exact this [] fun hcon => absurd hcon hzip
  case h_2 => rfl

/-- C7: invoked with zero fragments the graph builder fails (the model's
`none`, the code's fatal exception at `ids[0]`) and yields no graph;
for every non-empty fragment list it succeeds and returns a graph. -/
theorem build_empty_fails :
    (∀ (emb : String → List ℝ) (k : ℕ), build_engine emb [] k = none) ∧
    (∀ (emb : String → List ℝ) (chunks : List (String × String)) (k : ℕ),
      chunks ≠ [] → ∃ eng, build_engine emb chunks k = some eng) := by
  constructor
  · intro emb k
    rfl
  · intro emb chunks k h
    rw [← Option.isSome_iff_exists]
    exact build_engine_isSome emb chunks k h

/-- Witness for C7: a one-chunk corpus builds successfully. -/
theorem build_empty_fails_w :
    ∃ eng, build_engine embOne chunksOne 6 = some eng :=
  build_empty_fails.2 embOne chunksOne 6 (by simp [chunksOne])

/-- C8 counterexample: embeddings of differing lengths are *not*
rejected: `cosine_sim` happily returns a value (here 1) on mismatched
lengths, and the builder returns a graph from a provider with
inconsistent dimensions. -/
theorem dim_mismatch_cex :
    cosine_sim [(1 : ℝ), 0] [(1 : ℝ)] = 1 ∧
    ([(1 : ℝ), 0].length ≠ [(1 : ℝ)].length) ∧
    (build_engine embMM chunksMM 6).isSome = true := by
  refine ⟨?_, by simp, build_engine_isSome embMM chunksMM 6 (by simp [chunksMM])⟩
  unfold cosine_sim
  simp only [List.zipWith_cons_cons, List.zipWith_nil_right, List.map_cons,
    List.map_nil, List.sum_cons, List.sum_nil]
  norm_num [Real.sqrt_one]

lemma zipWith_mul_truncate (a : List ℝ) : ∀ b : List ℝ,
    List.zipWith (· * ·) a b = List.zipWith (· * ·) a (b.take a.length) := by
  induction a with
  | nil => intro b; simp
  | cons x xs ih =>
    intro b
    cases b with
    | nil => simp
    | cons y ys =>
      simp only [List.zipWith_cons_cons, List.length_cons, List.take_succ_cons]
      rw [← ih ys]

/-- C8 (amended): the similarity computation never fails on mismatched
lengths — the dot product silently truncates to the common prefix (the
`zip`), the magnitudes use the full vectors — and the graph builder
proceeds on any non-empty corpus regardless of embedding dimensions. -/
theorem dim_mismatch_amended :
    (∀ a b : List ℝ,
      (List.zipWith (· * ·) a b).sum = (List.zipWith (· * ·) a (b.take a.length)).sum) ∧
    (∀ (emb : String → List ℝ) (chunks : List (String × String)) (k : ℕ),
      chunks ≠ [] → (build_engine emb chunks k).isSome = true) := by
  constructor
  · intro a b
    rw [← zipWith_mul_truncate]
  · intro emb chunks k h
    exact build_engine_isSome emb chunks k h

/-- Witness for C8-amended on the concrete mismatched-dimension corpus. -/
theorem dim_mismatch_amended_w :
    (build_engine embMM chunksMM 3).isSome = true :=
  dim_mismatch_amended.2 embMM chunksMM 3 (by simp [chunksMM])

lemma sumsq_nonneg (a : List ℝ) : 0 ≤ (a.map fun x => x * x).sum := by
  induction a with
  | nil => simp
  | cons x xs ih =>
    simp only [List.map_cons, List.sum_cons]
    exact add_nonneg (mul_self_nonneg x) ih

/-- Cauchy–Schwarz for the zip-truncated dot product. -/
lemma dot_sq_le_sumsq (a : List ℝ) : ∀ b : List ℝ,
    ((List.zipWith (· * ·) a b).sum) ^ 2 ≤
      (a.map fun x => x * x).sum * (b.map fun x => x * x).sum := by
  induction a with
  | nil => intro b; simp
  | cons x xs ih =>
    intro b
    cases b with
    | nil => simp
    | cons y ys =>
      have hA := sumsq_nonneg xs
      have hB := sumsq_nonneg ys
      have hS := ih ys
      simp only [List.zipWith_cons_cons, List.map_cons, List.sum_cons]
      set S := (List.zipWith (· * ·) xs ys).sum with hSdef
      set A := (xs.map fun x => x * x).sum with hAdef
      set B := (ys.map fun x => x * x).sum with hBdef
      rcases hB.eq_or_lt with hB0 | hBpos
      · have h2 : S ^ 2 = 0 := le_antisymm (by nlinarith) (sq_nonneg S)
        have hS0 : S = 0 := sq_eq_zero_iff.mp h2
        rw [hS0]
        nlinarith [mul_nonneg hA (sq_nonneg y)]
      · nlinarith [sq_nonneg (x * B - y * S), mul_nonneg (sq_nonneg y) (sub_nonneg.mpr hS),
          mul_nonneg hB (sub_nonneg.mpr hS), hBpos]

lemma cosine_sim_le_one (a b : List ℝ) : cosine_sim a b ≤ 1 := by
  unfold cosine_sim
  dsimp only
  split_ifs with h
  · obtain ⟨hma, hmb⟩ := h
    have hA := sumsq_nonneg a
    have hB := sumsq_nonneg b
    have hcs := dot_sq_le_sumsq a b
    rw [div_le_one (mul_pos hma hmb)]
    calc (List.zipWith (· * ·) a b).sum
        ≤ |(List.zipWith (· * ·) a b).sum| := le_abs_self _
      _ = Real.sqrt (((List.zipWith (· * ·) a b).sum) ^ 2) := (Real.sqrt_sq_eq_abs _).symm
      _ ≤ Real.sqrt ((a.map fun x => x * x).sum * (b.map fun x => x * x).sum) :=
          Real.sqrt_le_sqrt hcs
      _ = Real.sqrt ((a.map fun x => x * x).sum) * Real.sqrt ((b.map fun x => x * x).sum) :=
          Real.sqrt_mul hA _
  · norm_num

lemma cosine_sim_self (q : List ℝ) (h : 0 < (q.map fun x => x * x).sum) :
    cosine_sim q q = 1 := by
  unfold cosine_sim
  dsimp only
  have hz : List.zipWith (· * ·) q q = q.map fun x => x * x := List.zipWith_same _ _
  have hpos : 0 < Real.sqrt ((q.map fun x => x * x).sum) := Real.sqrt_pos.mpr h
  rw [if_pos ⟨hpos, hpos⟩, hz, Real.mul_self_sqrt (le_of_lt h)]
  exact div_self (ne_of_gt h)

lemma head?_take {α : Type} (k : ℕ) (hk : 1 ≤ k) (l : List α) :
    (l.take k).head? = l.head? := by
  cases k with
  | zero => omega
  | succ m => cases l <;> rfl

/-- C9 (amended): if the query has positive squared magnitude, some
node's embedding equals the query, and no *other* node attains cosine
similarity 1 to the query, then the lookup ranks that node first with
similarity exactly 1. -/
theorem lookup_ranking_amended (e : Engine) (q : List ℝ) (k : ℕ)
    (hk : 1 ≤ k) (hq : 0 < (q.map fun x => x * x).sum)
    (p₀ : String × Node) (hp : p₀ ∈ e.nodes) (hemb : p₀.2.embedding = q)
    (huniq : ∀ p ∈ e.nodes, cosine_sim q p.2.embedding = 1 →
      p.2.id = p₀.2.id ∧ p.2.content = p₀.2.content) :
    (find_meaning e q k).head? = some (1, p₀.2.id, p₀.2.content) := by
  haveI : IsTotal (ℝ × String × String) scoreDescP := ⟨fun a b => le_total b.1 a.1⟩
  haveI : IsTrans (ℝ × String × String) scoreDescP :=
    ⟨fun a b c hab hbc => le_trans hbc hab⟩
  have hfm : find_meaning e q k =
      ((e.nodes.map fun p =>
        (cosine_sim q p.2.embedding, p.2.id, p.2.content)).insertionSort scoreDescP).take k := rfl
  set scores := e.nodes.map fun p => (cosine_sim q p.2.embedding, p.2.id, p.2.content)
    with hscores
  set l := scores.insertionSort scoreDescP with hldef
  have hsorted : l.Sorted scoreDescP := List.sorted_insertionSort scoreDescP scores
  have hperm : l.Perm scores := List.perm_insertionSort scoreDescP scores
  have hmem1 : (1, p₀.2.id, p₀.2.content) ∈ scores := by
    rw [hscores, List.mem_map]
    refine ⟨p₀, hp, ?_⟩
    rw [hemb, cosine_sim_self q hq]
  have hmem1l : (1, p₀.2.id, p₀.2.content) ∈ l := hperm.mem_iff.mpr hmem1
  have hlne : l ≠ [] := by
    intro h0
    rw [h0] at hmem1l
    exact absurd hmem1l (List.not_mem_nil _)
  obtain ⟨x, xs, hl⟩ := List.exists_cons_of_ne_nil hlne
  have hxmem : x ∈ scores := hperm.mem_iff.mp (hl ▸ List.mem_cons_self x xs)
  obtain ⟨m, hm, hxm⟩ := List.mem_map.mp (hscores ▸ hxmem)
  have hx1 : x.1 ≤ 1 := by
    rw [← hxm]
    exact cosine_sim_le_one q m.2.embedding
  have h1x : 1 ≤ x.1 := by
    rcases (List.mem_cons.mp (hl ▸ hmem1l)) with heq | htail
    · rw [← heq]
    · have hrel := (List.sorted_cons.mp (hl ▸ hsorted)).1
      exact hrel _ htail
  have hxval : x.1 = 1 := le_antisymm hx1 h1x
  have hcos1 : cosine_sim q m.2.embedding = 1 := by
    have : x.1 = cosine_sim q m.2.embedding := by rw [← hxm]
    rw [← this, hxval]
  obtain ⟨hid, hcont⟩ := huniq m hm hcos1
  have hxeq : x = (1, p₀.2.id, p₀.2.content) := by
    rw [← hxm, hcos1, hid, hcont]
  rw [hfm, head?_take k hk, hl, hxeq]
  rfl

/-- Witness for C9-amended on a one-node graph. -/
theorem lookup_ranking_amended_w :
    (find_meaning eOneN [1] 1).head? = some (1, nodeN.id, nodeN.content) :=
  lookup_ranking_amended eOneN [1] 1 (le_refl 1) (by norm_num)
    ("n", nodeN) (by simp [eOneN]) rfl
    (by
      intro p hp _
      have hpe : p = ("n", nodeN) := by simpa [eOneN] using hp
      rw [hpe]
      exact ⟨rfl, rfl⟩)

/-- C9 counterexample: (i) a node whose embedding is the zero vector and
identical to the query is returned with similarity 0, not 1; (ii) with
two nodes of identical embeddings, the second one — whose embedding is
identical to the query — is not ranked first. -/
theorem lookup_ranking_cex :
    (find_meaning eZero [0] 5 = [(0, "z", "cz")] ∧
      nodeZ.embedding = [(0 : ℝ)] ∧ (0 : ℝ) ≠ 1) ∧
    (find_meaning eDup [1] 5 = [(1, "a", "ca"), (1, "b", "cb")] ∧
      nodeB1.embedding = [(1 : ℝ)] ∧ nodeB1.id ≠ nodeA1.id) := by
  have hc0 : cosine_sim [(0 : ℝ)] [(0 : ℝ)] = 0 := by
    unfold cosine_sim
    norm_num
  have hc1 : cosine_sim [(1 : ℝ)] [(1 : ℝ)] = 1 := by
    unfold cosine_sim
    norm_num [Real.sqrt_one]
  refine ⟨⟨?_, rfl, by norm_num⟩, ⟨?_, rfl, by decide⟩⟩
  · show ((eZero.nodes.map fun p =>
      (cosine_sim [(0:ℝ)] p.2.embedding, p.2.id, p.2.content)).insertionSort
        scoreDescP).take 5 = [(0, "z", "cz")]
    have hsc : eZero.nodes.map (fun p =>
        (cosine_sim [(0:ℝ)] p.2.embedding, p.2.id, p.2.content)) = [(0, "z", "cz")] := by
      simp [eZero, nodeZ, hc0]
    rw [hsc]
    rfl
  · show ((eDup.nodes.map fun p =>
      (cosine_sim [(1:ℝ)] p.2.embedding, p.2.id, p.2.content)).insertionSort
        scoreDescP).take 5 = [(1, "a", "ca"), (1, "b", "cb")]
    have hsc : eDup.nodes.map (fun p =>
        (cosine_sim [(1:ℝ)] p.2.embedding, p.2.id, p.2.content)) =
        [(1, "a", "ca"), (1, "b", "cb")] := by
      simp [eDup, nodeA1, nodeB1, hc1]
    rw [hsc]
    show List.take 5 (List.orderedInsert scoreDescP (1, "a", "ca")
      (List.orderedInsert scoreDescP (1, "b", "cb") [])) =
      [(1, "a", "ca"), (1, "b", "cb")]
    rw [List.orderedInsert, List.orderedInsert,
      if_pos (show scoreDescP (1, "a", "ca") (1, "b", "cb") from le_refl (1 : ℝ))]
    rfl

end Rosetta
